import Mathlib

/-!
Diffie-Hellman key exchange (exercism/go/diffie-hellman).

A shallow embedding of `diffie_hellman.go`.  Go's `*big.Int` values are Lean
integers (`Int`), all arguments are taken to be non-nil pointers, and a
`*big.Int` result that may be nil is an `Option Int`.  The two library calls the
file makes, `crypto/rand.Int` and `(*big.Int).Exp`, are embedded from their
documented behaviour and the structure of their implementation:

* `rand.Int(reader, max)` panics when `max <= 0`, returns `0` without reading
  when `max = 1`, returns the reader's error when a read fails, and otherwise
  returns a value of `[0, max)`;
* `z.Exp(x, y, m)` works on sign and magnitude: the magnitude is computed by
  `expNN` (special cases first, then left-to-right square-and-multiply with a
  reduction after every step) and the sign is repaired afterwards.
-/

namespace DiffieHellman

/-! ## Outcomes of a Go call -/

/-- The error value an `io.Reader` hands back when a read fails. -/
structure ReadError where
  msg : String
  deriving DecidableEq, Repr

/-- Run-time panics that the calls of this package can raise. -/
inductive Panic
  /-- Raised by `rand.Int`: "crypto/rand: argument to Int is <= 0". -/
  | randIntNonPositive
  /-- A method call through a nil `*big.Int`. -/
  | nilDereference
  deriving DecidableEq, Repr

/-- What the caller of a Go function observes: a returned value, a returned
error, or a panic that unwinds through the caller. -/
inductive Outcome (α : Type)
  | value (v : α)
  | error (e : ReadError)
  | panic (c : Panic)
  deriving DecidableEq, Repr

/-- What the random reader does during one call of `rand.Int`: it either
supplies the bytes of the accepted candidate `u`, or a read fails with `e`. -/
inductive Source
  | draw (u : Int)
  | fail (e : ReadError)
  deriving DecidableEq, Repr

/-! ## crypto/rand.Int -/

/-- The call `rand.Int(rand.Reader, max)`: panics on `max <= 0`; for `max = 1` the
bit length of `max - 1` is zero and `0` is returned without touching the
reader; a failed read gives `(nil, err)`; otherwise the accepted draw. -/
def randInt (src : Source) (max : Int) : Outcome Int :=
  if max ≤ 0 then Outcome.panic Panic.randIntNonPositive
  else if max - 1 = 0 then Outcome.value 0
  else
    match src with
    | Source.fail e => Outcome.error e
    | Source.draw u => Outcome.value u

/-! ## math/big: modular exponentiation -/

/-- The main loop of `nat.expNN`, for an exponent `y > 1`: start from `z = x` (the
leading bit of `y`), then for every further bit, from the most significant down,
square `z`, multiply by `x` when the bit is set, and reduce modulo `m` when a
modulus is present.  The bits below the top one of `y` are those of `y / 2`
followed by `y % 2`; `fuel` bounds the number of bits. -/
def expLoop : Nat → Nat → Nat → Nat → Nat
  | 0, x, _, _ => x
  | fuel + 1, x, y, m =>
    if y ≤ 1 then x
    else
      let z := expLoop fuel x (y / 2) m
      let z := z * z
      let z := if y % 2 = 1 then z * x else z
      if m ≠ 0 then z % m else z

/-- The function `nat.expNN(x, y, m)` on magnitudes, `m = 0` meaning "no modulus". -/
def expNN (x y m : Nat) : Nat :=
  -- x**y mod 1 == 0
  if m = 1 then 0
  -- x**0 == 1
  else if y = 0 then 1
  -- 0**y == 0
  else if x = 0 then 0
  -- 1**y == 1
  else if x = 1 then 1
  -- x**1 == x
  else if y = 1 then (if m ≠ 0 then x % m else x)
  else expLoop y x y m

/-- The method `z.ModInverse(g, n)`: the inverse of `g` in the ring of integers
modulo `|n|`, in `[0, |n|)`, or nil when `g` and `n` are not relatively prime. -/
def ModInverse (g n : Int) : Option Int :=
  let n := if n < 0 then -n else n
  let g := if g < 0 then g % n else g
  if Int.gcd g n ≠ 1 then none
  else some (Int.gcdA g n % n)

/-- The method `z.Exp(x, y, m)`, returning `z` (or nil).  For `y < 0` and no
modulus the result is 1; for `y < 0` with a modulus the base is replaced by its
modular inverse (nil when there is none).  The magnitude is `expNN`; the result
is negative when `x` is negative and `y` is odd, and a negative result under a
modulus is replaced by `|m| - |z|`. -/
def Exp (x y m : Int) : Option Int :=
  if y < 0 ∧ m = 0 then some 1
  else
    let xWords? : Option Nat :=
      if y < 0 then (ModInverse x m).map Int.natAbs else some x.natAbs
    match xWords? with
    | none => none
    | some xWords =>
      let yWords := y.natAbs
      let mWords := m.natAbs
      let zabs := expNN xWords yWords mWords
      let zneg : Bool := decide (zabs ≠ 0) && decide (x < 0) && decide (yWords % 2 = 1)
      if zneg && decide (mWords ≠ 0) then some ((mWords : Int) - (zabs : Int))
      else if zneg then some (-(zabs : Int))
      else some (zabs : Int)

/-! ## diffie_hellman.go -/

/-- The bound handed to `rand.Int` by `PrivateKey` (source lines 12-14, 30-31):
`rangeSize = (maximal - minimal) + one` with `maximal = p - one`. -/
def rangeSize (p : Int) : Int :=
  let one : Int := 1
  let minimal : Int := 2
  let maximal : Int := p - one
  let rangeSize := maximal - minimal
  rangeSize + one

/-- The function `PrivateKey(p)`: `r, _ := rand.Int(rand.Reader, rangeSize)` discards the
error, so on a failed read `r` is nil and `r.Add(r, minimal)` dereferences it. -/
def PrivateKey (src : Source) (p : Int) : Outcome Int :=
  let minimal : Int := 2
  match randInt src (rangeSize p) with
  | Outcome.panic c => Outcome.panic c
  | Outcome.error _ => Outcome.panic Panic.nilDereference
  | Outcome.value r => Outcome.value (r + minimal)

/-- The function `PublicKey(private, p, g)`: `new(big.Int).Exp(big.NewInt(g), private, p)`. -/
def PublicKey (priv p : Int) (g : Int) : Option Int :=
  let bigG := g
  Exp bigG priv p

/-- The function `NewPair(p, g)`: `PrivateKey(p)` then `PublicKey` of its result. -/
def NewPair (src : Source) (p : Int) (g : Int) : Outcome (Int × Option Int) :=
  match PrivateKey src p with
  | Outcome.value privateKey => Outcome.value (privateKey, PublicKey privateKey p g)
  | Outcome.error e => Outcome.error e
  | Outcome.panic c => Outcome.panic c

/-- The function `SecretKey(private1, public2, p)`: `new(big.Int).Exp(public2, private1, p)`. -/
def SecretKey (private1 public2 p : Int) : Option Int :=
  Exp public2 private1 p

/-! ## The calls in their process state -/

/-- The state of the process that lies outside the arguments of a call.  Package
`diffiehellman` declares no package-level variable, so the only such state its
calls can reach is the process-wide reader `rand.Reader`: `reader n` is what the
reader does at its `n`-th use, `used` counts the uses made so far. -/
structure World where
  reader : Nat → Source
  used : Nat

/-- The call `rand.Int(rand.Reader, max)` run in the world `w`: its outcome is
`randInt` on what the reader does next, and the reader is used, and so moves on,
only when the bound is above one (no read happens before the panic for
`max <= 0`, nor for `max = 1`). -/
def randIntIn (w : World) (max : Int) : Outcome Int × World :=
  (randInt (w.reader w.used) max,
    if max ≤ 0 then w
    else if max - 1 = 0 then w
    else World.mk w.reader (w.used + 1))

/-- The call `big.NewInt(x)` run in the world `w`: a fresh value holding `x`; nothing
outside it is read or written. -/
def bigNewIntIn (w : World) (x : Int) : Int × World :=
  (x, w)

/-- The call `new(big.Int).Exp(x, y, m)` run in the world `w`: it works on its three
operands and the fresh receiver only. -/
def bigExpIn (w : World) (x y m : Int) : Option Int × World :=
  (Exp x y m, w)

/-- The function `PrivateKey(p)` run in the world `w` (source lines 11-36): the one call
that reaches outside its arguments is `rand.Int(rand.Reader, rangeSize)`. -/
def PrivateKeyIn (w : World) (p : Int) : Outcome Int × World :=
  let minimal : Int := 2
  let drawn := randIntIn w (rangeSize p)
  match drawn.1 with
  | Outcome.panic c => (Outcome.panic c, drawn.2)
  | Outcome.error _ => (Outcome.panic Panic.nilDereference, drawn.2)
  | Outcome.value r => (Outcome.value (r + minimal), drawn.2)

/-- The function `PublicKey(private, p, g)` run in the world `w` (source lines 38-42): its
body is the two calls `big.NewInt(g)` and `new(big.Int).Exp(bigG, private, p)`, each run
in the world the previous one left. -/
def PublicKeyIn (w : World) (priv p : Int) (g : Int) : Option Int × World :=
  let bigG := bigNewIntIn w g
  let res := bigExpIn bigG.2 bigG.1 priv p
  (res.1, res.2)

end DiffieHellman

/-! ## weather_forecast.go -/

namespace Weather

/-- The package-level variables of package `weather`; Go strings are Lean strings. -/
structure State where
  /-- The variable `CurrentCondition`, the current weather condition. -/
  CurrentCondition : String
  /-- The variable `CurrentLocation`, the current location. -/
  CurrentLocation : String
  deriving DecidableEq, Repr

/-- The function `Forecast(city, condition)`: the tuple assignment
`CurrentLocation, CurrentCondition = city, condition` stores both arguments in
the package variables, and the result is built from the variables just written.
The call is run in the package state `s` and gives back the new state. -/
def Forecast (s : State) (city condition : String) : String × State :=
  -- CurrentLocation = city
  let s := State.mk s.CurrentCondition city
  -- CurrentCondition = condition
  let s := State.mk condition s.CurrentLocation
  (s.CurrentLocation ++ " - current weather condition: " ++ s.CurrentCondition, s)

end Weather

namespace DiffieHellman

/-! ## Correctness of the exponentiation -/

theorem expLoop_mod (x m : Nat) :
    ∀ fuel y, 1 ≤ y → y ≤ fuel → expLoop fuel x y m % m = x ^ y % m := by
  intro fuel
  induction fuel with
  | zero => intro y h1 h2; omega
  | succ fuel ih =>
    intro y h1 h2
    unfold expLoop
    by_cases hy : y ≤ 1
    · have : y = 1 := by omega
      subst this
      simp
    · have hrec := ih (y / 2) (by omega) (by omega)
      have hsplit : x ^ y = x ^ (y / 2) * x ^ (y / 2) * x ^ (y % 2) := by
        rw [← pow_add, ← pow_add]
        congr 1
        omega
      simp only [hy, if_false]
      have hm : ∀ z : Nat, (if m ≠ 0 then z % m else z) = z % m := by
        intro z
        by_cases h0 : m = 0
        · simp [h0]
        · simp [h0]
      rw [hm, Nat.mod_mod, hsplit]
      rcases Nat.mod_two_eq_zero_or_one y with hb | hb
      · simp only [hb, pow_zero, mul_one]
        rw [if_neg (by decide), Nat.mul_mod, hrec, ← Nat.mul_mod]
      · simp only [hb, pow_one, if_true]
        rw [Nat.mul_mod (_ * _) x, Nat.mul_mod (expLoop fuel x (y / 2) m), hrec,
          ← Nat.mul_mod (x ^ (y / 2)), ← Nat.mul_mod]

theorem expLoop_eq (x m : Nat) (fuel y : Nat) (h2 : 2 ≤ y) (hf : y ≤ fuel) :
    expLoop fuel x y m = x ^ y % m := by
  have h := expLoop_mod x m fuel y (by omega) hf
  rw [← h]
  cases fuel with
  | zero => omega
  | succ fuel =>
    unfold expLoop
    have hy : ¬ y ≤ 1 := by omega
    simp only [hy, if_false]
    by_cases h0 : m = 0
    · simp [h0]
    · simp [h0]

/-- The magnitude computed by `expNN` is the power reduced modulo `m`
(`x ^ y % 0 = x ^ y` covers the case without a modulus). -/
theorem expNN_eq (x y m : Nat) : expNN x y m = x ^ y % m := by
  unfold expNN
  by_cases hm : m = 1
  · simp [hm, Nat.mod_one]
  by_cases hy : y = 0
  · subst hy
    simp only [hm, if_false, if_true, pow_zero]
    rcases Nat.eq_zero_or_pos m with h0 | h0
    · simp [h0]
    · rw [Nat.mod_eq_of_lt (by omega)]
  by_cases hx : x = 0
  · subst hx
    simp [hm, hy, zero_pow hy]
  by_cases hx1 : x = 1
  · subst hx1
    simp only [hm, hy, hx, if_false, if_true, one_pow]
    rcases Nat.eq_zero_or_pos m with h0 | h0
    · simp [h0]
    · rw [Nat.mod_eq_of_lt (by omega)]
  by_cases hy1 : y = 1
  · subst hy1
    by_cases h0 : m = 0
    · simp [hm, hx, hx1, h0]
    · simp [hm, hx, hx1, h0]
  simp only [hm, hy, hx, hx1, hy1, if_false]
  exact expLoop_eq x m y y (by omega) (le_refl y)

theorem neg_natCast_emod (a M : Nat) :
    (-(a : Int)) % (M : Int) = if a % M = 0 then 0 else (M : Int) - ((a % M : Nat) : Int) := by
  have hdiv : (a : Int) = (M : Int) * ((a / M : Nat) : Int) + ((a % M : Nat) : Int) := by
    exact_mod_cast (Nat.div_add_mod a M).symm
  by_cases hr : a % M = 0
  · simp only [hr, if_true]
    rw [hr] at hdiv
    rw [hdiv]
    simp
  · simp only [hr, if_false]
    rcases Nat.eq_zero_or_pos M with h0 | hM
    · subst h0
      simp
    · have hlt : a % M < M := Nat.mod_lt a hM
      have hrw : (-(a : Int)) = ((M : Int) - ((a % M : Nat) : Int))
          + (M : Int) * (-(((a / M : Nat) : Int) + 1)) := by
        rw [hdiv]
        push_cast
        ring
      rw [hrw, Int.add_mul_emod_self_left]
      apply Int.emod_eq_of_lt <;> omega

/-- For a non-negative exponent `Exp` returns (never nil) the power `x ^ y`
reduced into `[0, |m|)`; with `m = 0` this is `x ^ y` itself, as `z % 0 = z`. -/
theorem Exp_of_nonneg (x y m : Int) (hy : 0 ≤ y) :
    Exp x y m = some (x ^ y.toNat % (m.natAbs : Int)) := by
  have hy' : ¬ y < 0 := by omega
  have hn : y.toNat = y.natAbs := by omega
  unfold Exp
  simp only [hy', false_and, if_false, expNN_eq, hn]
  generalize y.natAbs = n
  generalize hM : m.natAbs = M
  by_cases hx : x < 0
  · obtain ⟨X, hX⟩ : ∃ X : Nat, x = -(X : Int) := ⟨x.natAbs, by omega⟩
    subst hX
    simp only [Int.natAbs_neg, Int.natAbs_ofNat]
    rcases Nat.mod_two_eq_zero_or_one n with hb | hb
    · have hev : Even n := Nat.even_iff.mpr hb
      simp only [hb, hev.neg_pow]
      simp
    · have hodd : Odd n := Nat.odd_iff.mpr hb
      rw [hodd.neg_pow]
      have hcast : ((X : Int)) ^ n = ((X ^ n : Nat) : Int) := by push_cast; rfl
      rw [hcast, neg_natCast_emod]
      by_cases hz : X ^ n % M = 0
      · simp [hz]
      · by_cases h0 : M = 0
        · subst h0
          have hX0 : X ≠ 0 := by omega
          simp [hb, hx, hX0]
        · simp [hz, hb, hx, h0]
  · obtain ⟨X, hX⟩ : ∃ X : Nat, x = (X : Int) := ⟨x.natAbs, by omega⟩
    subst hX
    simp [hx]

/-- Under a positive modulus and a non-negative exponent, `Exp` returns the
Euclidean residue of the power. -/
theorem Exp_of_pos (x y m : Int) (hm : 0 < m) (hy : 0 ≤ y) :
    Exp x y m = some (x ^ y.toNat % m) := by
  rw [Exp_of_nonneg x y m hy, Int.natAbs_of_nonneg (le_of_lt hm)]

/-- Reducing the base first does not change the residue of a power. -/
theorem emod_pow_emod (x m : Int) (n : Nat) : (x % m) ^ n % m = x ^ n % m :=
  (Int.mod_modEq x m).pow n

/-- The bound of the draw is `p - 2`. -/
theorem rangeSize_eq (p : Int) : rangeSize p = p - 2 := by
  simp only [rangeSize]
  omega

/-- With a bound above one, `PrivateKey` returns the accepted draw shifted by two. -/
theorem PrivateKey_draw (u p : Int) (hp : 3 < p) :
    PrivateKey (Source.draw u) p = Outcome.value (u + 2) := by
  have h1 : ¬ rangeSize p ≤ 0 := by rw [rangeSize_eq]; omega
  have h2 : ¬ rangeSize p - 1 = 0 := by rw [rangeSize_eq]; omega
  simp [PrivateKey, randInt, h1, h2]

/-! ## The claims -/

/-- C1. Key agreement: for every modulus `p > 3`, every generator `g` and all private
keys `a`, `b` in `[2, p-1]`, both public keys are returned and
`SecretKey(a, PublicKey(b, p, g), p)` and `SecretKey(b, PublicKey(a, p, g), p)`
return the same value. -/
theorem C1_key_agreement (p g a b : Int) (hp : 3 < p)
    (ha : 2 ≤ a ∧ a ≤ p - 1) (hb : 2 ≤ b ∧ b ≤ p - 1) :
    ∃ pubA pubB s, PublicKey a p g = some pubA ∧ PublicKey b p g = some pubB ∧
      SecretKey a pubB p = some s ∧ SecretKey b pubA p = some s := by
  have hp0 : 0 < p := by omega
  have ha0 : 0 ≤ a := by omega
  have hb0 : 0 ≤ b := by omega
  refine ⟨g ^ a.toNat % p, g ^ b.toNat % p, g ^ (a.toNat * b.toNat) % p,
    Exp_of_pos g a p hp0 ha0, Exp_of_pos g b p hp0 hb0, ?_, ?_⟩
  · unfold SecretKey
    rw [Exp_of_pos _ a p hp0 ha0, emod_pow_emod, ← pow_mul, Nat.mul_comm]
  · unfold SecretKey
    rw [Exp_of_pos _ b p hp0 hb0, emod_pow_emod, ← pow_mul]

theorem C1_key_agreement_witness :
    (3 : Int) < 23 ∧ ((2 : Int) ≤ 6 ∧ (6 : Int) ≤ 23 - 1) ∧ ((2 : Int) ≤ 15 ∧ (15 : Int) ≤ 23 - 1) ∧
    ∃ pubA pubB s, PublicKey 6 23 5 = some pubA ∧ PublicKey 15 23 5 = some pubB ∧
      SecretKey 6 pubB 23 = some s ∧ SecretKey 15 pubA 23 = some s :=
  ⟨by decide, by decide, by decide,
    C1_key_agreement 23 5 6 15 (by decide) (by decide) (by decide)⟩

/-- C2. For every modulus `p > 3` and every draw `u` with `0 ≤ u ≤ rangeSize - 1`,
`PrivateKey(p)` returns a value `v` with `2 ≤ v ≤ p - 1`. -/
theorem C2_private_key_range (p u : Int) (hp : 3 < p)
    (hu : 0 ≤ u ∧ u ≤ rangeSize p - 1) :
    ∃ v, PrivateKey (Source.draw u) p = Outcome.value v ∧ 2 ≤ v ∧ v ≤ p - 1 := by
  have hr := rangeSize_eq p
  refine ⟨u + 2, PrivateKey_draw u p hp, ?_, ?_⟩ <;> omega

theorem C2_private_key_range_witness :
    (3 : Int) < 23 ∧ ((0 : Int) ≤ 20 ∧ (20 : Int) ≤ rangeSize 23 - 1) ∧
    ∃ v, PrivateKey (Source.draw 20) 23 = Outcome.value v ∧ 2 ≤ v ∧ v ≤ 23 - 1 :=
  ⟨by decide, by decide, C2_private_key_range 23 20 (by decide) (by decide)⟩

/-- C3. For every modulus `p > 0`, every exponent `private ≥ 0` and every generator
`g ≥ 0`, `PublicKey(private, p, g)` returns `g ^ private mod p`. -/
theorem C3_public_key_value (priv p g : Int) (hp : 0 < p) (hpriv : 0 ≤ priv) (_hg : 0 ≤ g) :
    PublicKey priv p g = some (g ^ priv.toNat % p) := by
  unfold PublicKey
  exact Exp_of_pos g priv p hp hpriv

theorem C3_public_key_value_witness :
    (0 : Int) < 23 ∧ (0 : Int) ≤ 6 ∧ (0 : Int) ≤ 5 ∧
    PublicKey 6 23 5 = some (5 ^ (6 : Int).toNat % 23) :=
  ⟨by decide, by decide, by decide,
    C3_public_key_value 6 23 5 (by decide) (by decide) (by decide)⟩

/-- C4. For every modulus `p > 0`, every own private key `private1 ≥ 0` and every peer
public key `public2 ≥ 0`, `SecretKey(private1, public2, p)` returns
`public2 ^ private1 mod p`. -/
theorem C4_secret_key_value (private1 public2 p : Int) (hp : 0 < p) (hpriv : 0 ≤ private1)
    (_hpub : 0 ≤ public2) :
    SecretKey private1 public2 p = some (public2 ^ private1.toNat % p) := by
  unfold SecretKey
  exact Exp_of_pos public2 private1 p hp hpriv

theorem C4_secret_key_value_witness :
    (0 : Int) < 23 ∧ (0 : Int) ≤ 6 ∧ (0 : Int) ≤ 19 ∧
    SecretKey 6 19 23 = some (19 ^ (6 : Int).toNat % 23) :=
  ⟨by decide, by decide, by decide,
    C4_secret_key_value 6 19 23 (by decide) (by decide) (by decide)⟩

/-- C5, as stated, fails at `p = 3`: the bound of the draw is `1`, so `rand.Int`
returns `0` (without reading) and `PrivateKey(3)` returns the key `2`, whether
the reader works or not. -/
theorem C5_counterexample :
    (3 : Int) ≤ 3 ∧ PrivateKey (Source.draw 0) 3 = Outcome.value 2 ∧
      PrivateKey (Source.fail ⟨"EOF"⟩) 3 = Outcome.value 2 := by
  decide

/-- C5, amended. For every modulus `p ≤ 2`, whatever the random source does,
`PrivateKey(p)` returns no key: `rand.Int` panics on the bound `p - 2 ≤ 0`. -/
theorem C5_private_key_small_modulus (src : Source) (p : Int) (hp : p ≤ 2) :
    PrivateKey src p = Outcome.panic Panic.randIntNonPositive ∧
      ∀ v, PrivateKey src p ≠ Outcome.value v := by
  have h1 : rangeSize p ≤ 0 := by rw [rangeSize_eq]; omega
  have h : PrivateKey src p = Outcome.panic Panic.randIntNonPositive := by
    simp [PrivateKey, randInt, h1]
  refine ⟨h, ?_⟩
  intro v hv
  rw [h] at hv
  cases hv

theorem C5_private_key_small_modulus_witness :
    (2 : Int) ≤ 2 ∧
    (PrivateKey (Source.draw 0) 2 = Outcome.panic Panic.randIntNonPositive ∧
      ∀ v, PrivateKey (Source.draw 0) 2 ≠ Outcome.value v) :=
  ⟨by decide, C5_private_key_small_modulus (Source.draw 0) 2 (by decide)⟩

/-- C6, as stated, fails: with the moduli `0` and `-5` both functions return a value. -/
theorem C6_counterexample :
    PublicKey 2 0 3 = some 9 ∧ PublicKey 2 (-5) 3 = some 4 ∧
      SecretKey 2 3 0 = some 9 ∧ SecretKey 2 3 (-5) = some 4 := by
  decide

/-- C6, amended. For every modulus `p ≤ 0` and every exponent `≥ 0`, `PublicKey` and
`SecretKey` do not fail: they return the power reduced modulo `|p| = -p`, and for
`p = 0` the power itself. -/
theorem C6_nonpositive_modulus (priv p g public2 : Int) (hp : p ≤ 0) (hpriv : 0 ≤ priv) :
    PublicKey priv p g = some (g ^ priv.toNat % (-p)) ∧
      SecretKey priv public2 p = some (public2 ^ priv.toNat % (-p)) ∧
      (p = 0 → PublicKey priv p g = some (g ^ priv.toNat) ∧
        SecretKey priv public2 p = some (public2 ^ priv.toNat)) := by
  have habs : (p.natAbs : Int) = -p := Int.ofNat_natAbs_of_nonpos hp
  have h1 : PublicKey priv p g = some (g ^ priv.toNat % (-p)) := by
    unfold PublicKey
    rw [Exp_of_nonneg g priv p hpriv, habs]
  have h2 : SecretKey priv public2 p = some (public2 ^ priv.toNat % (-p)) := by
    unfold SecretKey
    rw [Exp_of_nonneg public2 priv p hpriv, habs]
  refine ⟨h1, h2, ?_⟩
  intro h0
  subst h0
  rw [h1, h2]
  simp

theorem C6_nonpositive_modulus_witness :
    (-5 : Int) ≤ 0 ∧ (0 : Int) ≤ 2 ∧
    (PublicKey 2 (-5) 3 = some (3 ^ (2 : Int).toNat % (-(-5))) ∧
      SecretKey 2 3 (-5) = some (3 ^ (2 : Int).toNat % (-(-5))) ∧
      ((-5 : Int) = 0 → PublicKey 2 (-5) 3 = some (3 ^ (2 : Int).toNat) ∧
        SecretKey 2 3 (-5) = some (3 ^ (2 : Int).toNat))) :=
  ⟨by decide, by decide, C6_nonpositive_modulus 2 (-5) 3 3 (by decide) (by decide)⟩

/-- C7, as stated, fails: when the read fails under `p = 23`, the caller of
`PrivateKey` does not receive the reader's error; the error was discarded and
the call ends in a nil-dereference panic. -/
theorem C7_counterexample :
    PrivateKey (Source.fail ⟨"EOF"⟩) 23 = Outcome.panic Panic.nilDereference ∧
      PrivateKey (Source.fail ⟨"EOF"⟩) 23 ≠ Outcome.error ⟨"EOF"⟩ := by
  decide

/-- C7, amended. When the random source fails during the draw (`p > 3`, where the
reader is read), `PrivateKey(p)` returns no key value and no error value: it has
no error result, and its outcome does not depend on which error the reader gave. -/
theorem C7_read_failure (p : Int) (e : ReadError) (hp : 3 < p) :
    (∀ v, PrivateKey (Source.fail e) p ≠ Outcome.value v) ∧
      (∀ e2, PrivateKey (Source.fail e) p ≠ Outcome.error e2) ∧
      (∀ e2, PrivateKey (Source.fail e2) p = PrivateKey (Source.fail e) p) := by
  have h1 : ¬ rangeSize p ≤ 0 := by rw [rangeSize_eq]; omega
  have h2 : ¬ rangeSize p - 1 = 0 := by rw [rangeSize_eq]; omega
  have h : ∀ e2, PrivateKey (Source.fail e2) p = Outcome.panic Panic.nilDereference := by
    intro e2
    simp [PrivateKey, randInt, h1, h2]
  refine ⟨?_, ?_, ?_⟩
  · intro v hv
    rw [h e] at hv
    cases hv
  · intro e2 he
    rw [h e] at he
    cases he
  · intro e2
    rw [h e2, h e]

theorem C7_read_failure_witness :
    (3 : Int) < 23 ∧
    ((∀ v, PrivateKey (Source.fail ⟨"EOF"⟩) 23 ≠ Outcome.value v) ∧
      (∀ e2, PrivateKey (Source.fail ⟨"EOF"⟩) 23 ≠ Outcome.error e2) ∧
      (∀ e2, PrivateKey (Source.fail e2) 23 = PrivateKey (Source.fail ⟨"EOF"⟩) 23)) :=
  ⟨by decide, C7_read_failure 23 ⟨"EOF"⟩ (by decide)⟩

/-- C8. For every modulus `p > 3`, every generator `g` and every draw `u` of the
range, `NewPair(p, g)` returns the pair of the key `priv` that `PrivateKey(p)`
returns for that draw, with `2 ≤ priv ≤ p - 1`, and of `PublicKey(priv, p, g)`,
which is a value (not nil). -/
theorem C8_new_pair (p g u : Int) (hp : 3 < p) (hu : 0 ≤ u ∧ u ≤ rangeSize p - 1) :
    ∃ priv pub, PrivateKey (Source.draw u) p = Outcome.value priv ∧
      NewPair (Source.draw u) p g = Outcome.value (priv, PublicKey priv p g) ∧
      PublicKey priv p g = some pub ∧ 2 ≤ priv ∧ priv ≤ p - 1 := by
  have hr := rangeSize_eq p
  have hk := PrivateKey_draw u p hp
  refine ⟨u + 2, g ^ (u + 2).toNat % p, hk, ?_, ?_, ?_, ?_⟩
  · simp only [NewPair, hk]
  · unfold PublicKey
    exact Exp_of_pos g (u + 2) p (by omega) (by omega)
  · omega
  · omega

theorem C8_new_pair_witness :
    (3 : Int) < 23 ∧ ((0 : Int) ≤ 4 ∧ (4 : Int) ≤ rangeSize 23 - 1) ∧
    ∃ priv pub, PrivateKey (Source.draw 4) 23 = Outcome.value priv ∧
      NewPair (Source.draw 4) 23 5 = Outcome.value (priv, PublicKey priv 23 5) ∧
      PublicKey priv 23 5 = some pub ∧ 2 ≤ priv ∧ priv ≤ 23 - 1 :=
  ⟨by decide, by decide, C8_new_pair 23 5 4 (by decide) (by decide)⟩

/-- C9. For every modulus `p > 0` of any size, every generator `g` and peer key
`public2` of either sign and every exponent `≥ 0`, `PublicKey` and `SecretKey`
return a value `r` with `0 ≤ r ≤ p - 1` that is congruent to the exact power
modulo `p`: the exact residue, nothing lost to overflow or truncation. -/
theorem C9_residue_range (priv p g public2 : Int) (hp : 0 < p) (hpriv : 0 ≤ priv) :
    (∃ r, PublicKey priv p g = some r ∧ 0 ≤ r ∧ r ≤ p - 1 ∧
      Int.ModEq p r (g ^ priv.toNat)) ∧
    (∃ s, SecretKey priv public2 p = some s ∧ 0 ≤ s ∧ s ≤ p - 1 ∧
      Int.ModEq p s (public2 ^ priv.toNat)) := by
  have hne : p ≠ 0 := by omega
  constructor
  · refine ⟨g ^ priv.toNat % p, ?_, Int.emod_nonneg _ hne, ?_, Int.mod_modEq _ _⟩
    · unfold PublicKey
      exact Exp_of_pos g priv p hp hpriv
    · have := Int.emod_lt_of_pos (g ^ priv.toNat) hp
      omega
  · refine ⟨public2 ^ priv.toNat % p, ?_, Int.emod_nonneg _ hne, ?_, Int.mod_modEq _ _⟩
    · unfold SecretKey
      exact Exp_of_pos public2 priv p hp hpriv
    · have := Int.emod_lt_of_pos (public2 ^ priv.toNat) hp
      omega

theorem C9_residue_range_witness :
    (0 : Int) < 7 ∧ (0 : Int) ≤ 3 ∧
    ((∃ r, PublicKey 3 7 (-2) = some r ∧ 0 ≤ r ∧ r ≤ 7 - 1 ∧
      Int.ModEq 7 r ((-2) ^ (3 : Int).toNat)) ∧
    (∃ s, SecretKey 3 (-3) 7 = some s ∧ 0 ≤ s ∧ s ≤ 7 - 1 ∧
      Int.ModEq 7 s ((-3) ^ (3 : Int).toNat))) :=
  ⟨by decide, by decide, C9_residue_range 3 7 (-2) (-3) (by decide) (by decide)⟩

/-- C10. The scenario `p = 23`, `g = 5`: `PublicKey(6, 23, 5) = 8`,
`PublicKey(15, 23, 5) = 19`, `SecretKey(6, 19, 23) = 2`, `SecretKey(15, 8, 23) = 2`,
and `PrivateKey(23)` returns `6` when the draw is `4`. -/
theorem C10_scenario :
    PublicKey 6 23 5 = some 8 ∧ PublicKey 15 23 5 = some 19 ∧
      SecretKey 6 19 23 = some 2 ∧ SecretKey 15 8 23 = some 2 ∧
      PrivateKey (Source.draw 4) 23 = Outcome.value 6 := by
  decide

/-- With a bound that is not positive, `rand.Int` panics before the reader is used. -/
theorem PrivateKey_of_le_two (src : Source) (p : Int) (hp : p ≤ 2) :
    PrivateKey src p = Outcome.panic Panic.randIntNonPositive := by
  have h1 : rangeSize p ≤ 0 := by rw [rangeSize_eq]; omega
  simp [PrivateKey, randInt, h1]

/-- With the bound one, `rand.Int` returns zero without using the reader. -/
theorem PrivateKey_three (src : Source) : PrivateKey src 3 = Outcome.value 2 := by
  have h1 : ¬ rangeSize 3 ≤ 0 := by decide
  have h2 : rangeSize 3 - 1 = 0 := by decide
  simp [PrivateKey, randInt, h1, h2]

/-- C11. Boundary `p = 4`: for every draw `u` the random source can return
(`0 ≤ u ≤ rangeSize - 1`), `PrivateKey(4)` does not fail and returns `2` or `3`; and
each of `2` and `3` is returned for some such draw. -/
theorem C11_boundary_four (u : Int) (hu : 0 ≤ u ∧ u ≤ rangeSize 4 - 1) :
    (PrivateKey (Source.draw u) 4 = Outcome.value 2 ∨
      PrivateKey (Source.draw u) 4 = Outcome.value 3) ∧
    (∃ u2, (0 ≤ u2 ∧ u2 ≤ rangeSize 4 - 1) ∧
      PrivateKey (Source.draw u2) 4 = Outcome.value 2) ∧
    (∃ u3, (0 ≤ u3 ∧ u3 ≤ rangeSize 4 - 1) ∧
      PrivateKey (Source.draw u3) 4 = Outcome.value 3) := by
  have hr : rangeSize 4 = 2 := by decide
  rw [hr] at hu
  refine ⟨?_, ⟨0, by decide, by decide⟩, ⟨1, by decide, by decide⟩⟩
  have hk := PrivateKey_draw u 4 (by decide)
  have hcases : u = 0 ∨ u = 1 := by omega
  rcases hcases with h | h
  · left
    rw [hk, h]
    rfl
  · right
    rw [hk, h]
    rfl

theorem C11_boundary_four_witness :
    ((0 : Int) ≤ 1 ∧ (1 : Int) ≤ rangeSize 4 - 1) ∧
    ((PrivateKey (Source.draw 1) 4 = Outcome.value 2 ∨
      PrivateKey (Source.draw 1) 4 = Outcome.value 3) ∧
    (∃ u2, (0 ≤ u2 ∧ u2 ≤ rangeSize 4 - 1) ∧
      PrivateKey (Source.draw u2) 4 = Outcome.value 2) ∧
    (∃ u3, (0 ≤ u3 ∧ u3 ≤ rangeSize 4 - 1) ∧
      PrivateKey (Source.draw u3) 4 = Outcome.value 3)) :=
  ⟨by decide, C11_boundary_four 1 (by decide)⟩

/-- C12. Unbiased shift: for every `p > 3` the bound of the draw is
`rangeSize = p - 2`, the number of integers in `[2, p-1]`; `PrivateKey` returns the
draw `u` shifted to `u + 2`, a bijection from `[0, p-3]` onto `[2, p-1]`; so every
key of the range is returned for exactly one draw of `[0, p-3]` (a uniform draw
gives a uniform key). -/
theorem C12_shift_bijection (p : Int) (hp : 3 < p) :
    rangeSize p = p - 2 ∧
    ((Finset.Icc (2 : Int) (p - 1)).card : Int) = rangeSize p ∧
    (∀ u, PrivateKey (Source.draw u) p = Outcome.value (u + 2)) ∧
    Set.BijOn (fun u : Int => u + 2) (Set.Icc 0 (p - 3)) (Set.Icc 2 (p - 1)) ∧
    (∀ v, 2 ≤ v → v ≤ p - 1 →
      ∃! u, (0 ≤ u ∧ u ≤ p - 3) ∧ PrivateKey (Source.draw u) p = Outcome.value v) ∧
    (∀ v, 2 ≤ v → v ≤ p - 1 →
      (Finset.filter (fun u => PrivateKey (Source.draw u) p = Outcome.value v)
        (Finset.Icc 0 (p - 3))).card = 1) := by
  have hk : ∀ u, PrivateKey (Source.draw u) p = Outcome.value (u + 2) :=
    fun u => PrivateKey_draw u p hp
  refine ⟨rangeSize_eq p, ?_, hk, ?_, ?_, ?_⟩
  · rw [rangeSize_eq, Int.card_Icc_of_le]
    · ring
    · omega
  · refine ⟨?_, ?_, ?_⟩
    · intro u hu
      simp only [Set.mem_Icc] at hu ⊢
      omega
    · intro u _ w _ huw
      simp only at huw
      omega
    · intro v hv
      simp only [Set.mem_Icc] at hv
      refine ⟨v - 2, ?_, ?_⟩
      · simp only [Set.mem_Icc]
        omega
      · simp
  · intro v h2 hv
    refine ⟨v - 2, ⟨⟨by omega, by omega⟩, ?_⟩, ?_⟩
    · rw [hk]
      congr 1
      omega
    · rintro u ⟨_, hu⟩
      rw [hk] at hu
      injection hu with hu
      omega
  · intro v h2 hv
    have hset : Finset.filter (fun u => PrivateKey (Source.draw u) p = Outcome.value v)
        (Finset.Icc 0 (p - 3)) = {v - 2} := by
      ext u
      simp only [Finset.mem_filter, Finset.mem_Icc, Finset.mem_singleton, hk,
        Outcome.value.injEq]
      constructor
      · rintro ⟨_, h⟩
        omega
      · intro h
        omega
    rw [hset, Finset.card_singleton]

theorem C12_shift_bijection_witness :
    (3 : Int) < 23 ∧
    (rangeSize 23 = 23 - 2 ∧
    ((Finset.Icc (2 : Int) (23 - 1)).card : Int) = rangeSize 23 ∧
    (∀ u, PrivateKey (Source.draw u) 23 = Outcome.value (u + 2)) ∧
    Set.BijOn (fun u : Int => u + 2) (Set.Icc 0 (23 - 3)) (Set.Icc 2 (23 - 1)) ∧
    (∀ v, 2 ≤ v → v ≤ 23 - 1 →
      ∃! u, (0 ≤ u ∧ u ≤ 23 - 3) ∧ PrivateKey (Source.draw u) 23 = Outcome.value v) ∧
    (∀ v, 2 ≤ v → v ≤ 23 - 1 →
      (Finset.filter (fun u => PrivateKey (Source.draw u) 23 = Outcome.value v)
        (Finset.Icc 0 (23 - 3))).card = 1)) :=
  ⟨by decide, C12_shift_bijection 23 (by decide)⟩

/-- The public key of a pair is the one `PublicKey` computes from the private key
of the pair. -/
theorem NewPair_value (src : Source) (p g k : Int) (pub : Option Int)
    (h : NewPair src p g = Outcome.value (k, pub)) : pub = PublicKey k p g := by
  unfold NewPair at h
  cases hk : PrivateKey src p with
  | value k2 =>
    rw [hk] at h
    simp only [Outcome.value.injEq, Prod.mk.injEq] at h
    rw [← h.2, h.1]
  | error e =>
    rw [hk] at h
    cases h
  | panic c =>
    rw [hk] at h
    cases h

/-- Run in a world, `PrivateKey` returns what the pure embedding returns for the
reader's next action. -/
theorem PrivateKeyIn_fst (w : World) (p : Int) :
    (PrivateKeyIn w p).1 = PrivateKey (w.reader w.used) p := by
  unfold PrivateKeyIn PrivateKey randIntIn
  cases randInt (w.reader w.used) (rangeSize p) <;> rfl

/-- The result of `PrivateKey` does depend on the world: two readers give
different keys under the same modulus. -/
theorem PrivateKeyIn_reader_dependent :
    (PrivateKeyIn (World.mk (fun _ => Source.draw 4) 0) 23).1 ≠
      (PrivateKeyIn (World.mk (fun _ => Source.draw 5) 0) 23).1 := by
  decide

/-- For a modulus above three `PrivateKey` uses the reader once. -/
theorem PrivateKeyIn_used (w : World) (p : Int) (hp : 3 < p) :
    (PrivateKeyIn w p).2.used = w.used + 1 := by
  have h1 : ¬ rangeSize p ≤ 0 := by rw [rangeSize_eq]; omega
  have h2 : ¬ rangeSize p - 1 = 0 := by rw [rangeSize_eq]; omega
  unfold PrivateKeyIn randIntIn
  cases randInt (w.reader w.used) (rangeSize p) <;> simp [h1, h2]

/-- C13. Determinism of `PublicKey`: run with the same `(private, p, g)` in any two
states of the process, whatever the random reader does in each and however often
it was used, the call returns the same value; it leaves the process state as it
found it; a `PrivateKey` call made in between, which uses the reader, does not
change what the second call returns; the value is that of `Exp` on the
arguments, which for `p > 0`, `private ≥ 0` is `g ^ private mod p`. -/
theorem C13_public_key_deterministic (w1 w2 : World) (priv p g : Int) :
    (PublicKeyIn w1 priv p g).1 = (PublicKeyIn w2 priv p g).1 ∧
    (PublicKeyIn w1 priv p g).2 = w1 ∧
    (PublicKeyIn (PrivateKeyIn w1 p).2 priv p g).1 = (PublicKeyIn w1 priv p g).1 ∧
    (PublicKeyIn w1 priv p g).1 = PublicKey priv p g ∧
    (0 < p → 0 ≤ priv → (PublicKeyIn w1 priv p g).1 = some (g ^ priv.toNat % p)) := by
  have hval : ∀ w : World, (PublicKeyIn w priv p g).1 = Exp g priv p := by
    intro w
    simp only [PublicKeyIn, bigNewIntIn, bigExpIn]
  have hworld : ∀ w : World, (PublicKeyIn w priv p g).2 = w := by
    intro w
    simp only [PublicKeyIn, bigNewIntIn, bigExpIn]
  refine ⟨?_, hworld w1, ?_, ?_, ?_⟩
  · rw [hval w1, hval w2]
  · rw [hval, hval w1]
  · rw [hval w1]
    rfl
  · intro hp hpriv
    rw [hval w1]
    exact Exp_of_pos g priv p hp hpriv

theorem C13_public_key_deterministic_witness :
    (0 : Int) < 23 ∧ (0 : Int) ≤ 6 ∧
    (PublicKeyIn (World.mk (fun _ => Source.draw 4) 0) 6 23 5).1 =
      (PublicKeyIn (World.mk (fun _ => Source.fail ⟨"EOF"⟩) 7) 6 23 5).1 ∧
    (PublicKeyIn (World.mk (fun _ => Source.draw 4) 0) 6 23 5).2 =
      World.mk (fun _ => Source.draw 4) 0 ∧
    (PublicKeyIn (PrivateKeyIn (World.mk (fun _ => Source.draw 4) 0) 23).2 6 23 5).1 =
      (PublicKeyIn (World.mk (fun _ => Source.draw 4) 0) 6 23 5).1 ∧
    (PublicKeyIn (World.mk (fun _ => Source.draw 4) 0) 6 23 5).1 = PublicKey 6 23 5 ∧
    (PublicKeyIn (World.mk (fun _ => Source.draw 4) 0) 6 23 5).1 =
      some (5 ^ (6 : Int).toNat % 23) :=
  have h := C13_public_key_deterministic (World.mk (fun _ => Source.draw 4) 0)
    (World.mk (fun _ => Source.fail ⟨"EOF"⟩) 7) 6 23 5
  ⟨by decide, by decide, h.1, h.2.1, h.2.2.1, h.2.2.2.1, h.2.2.2.2 (by decide) (by decide)⟩

/-- C14. For every modulus `p > 0`, every generator `g` and all private keys
`a, b ≥ 0`, the public key of `b` is returned and
`SecretKey(a, PublicKey(b, p, g), p)` returns `g ^ (a * b) mod p`. -/
theorem C14_shared_secret_value (p g a b : Int) (hp : 0 < p) (ha : 0 ≤ a) (hb : 0 ≤ b) :
    ∃ pubB, PublicKey b p g = some pubB ∧
      SecretKey a pubB p = some (g ^ (a * b).toNat % p) := by
  refine ⟨g ^ b.toNat % p, Exp_of_pos g b p hp hb, ?_⟩
  have hab : (a * b).toNat = b.toNat * a.toNat := by
    obtain ⟨m, rfl⟩ := Int.eq_ofNat_of_zero_le ha
    obtain ⟨n, rfl⟩ := Int.eq_ofNat_of_zero_le hb
    rw [← Nat.cast_mul, Int.toNat_natCast, Int.toNat_natCast, Int.toNat_natCast,
      Nat.mul_comm]
  unfold SecretKey
  rw [Exp_of_pos _ a p hp ha, emod_pow_emod, ← pow_mul, hab]

theorem C14_shared_secret_value_witness :
    (0 : Int) < 23 ∧ (0 : Int) ≤ 6 ∧ (0 : Int) ≤ 15 ∧
    ∃ pubB, PublicKey 15 23 5 = some pubB ∧
      SecretKey 6 pubB 23 = some (5 ^ ((6 : Int) * 15).toNat % 23) :=
  ⟨by decide, by decide, by decide,
    C14_shared_secret_value 23 5 6 15 (by decide) (by decide) (by decide)⟩

/-- C15. With a working random source (any draw `u`), `PrivateKey(p)` fails if and
only if `p ≤ 2`, and the failure is the panic of `rand.Int` on its bound
`rangeSize = p - 2 ≤ 0`; `PrivateKey(3)` does not fail and returns exactly `2`. -/
theorem C15_failure_iff (u p : Int) :
    ((∀ v, PrivateKey (Source.draw u) p ≠ Outcome.value v) ↔ p ≤ 2) ∧
    (PrivateKey (Source.draw u) p = Outcome.panic Panic.randIntNonPositive ↔ p ≤ 2) ∧
    PrivateKey (Source.draw u) 3 = Outcome.value 2 := by
  have hval : 2 < p → ∃ v, PrivateKey (Source.draw u) p = Outcome.value v := by
    intro h
    by_cases h3 : p = 3
    · subst h3
      exact ⟨2, PrivateKey_three _⟩
    · exact ⟨u + 2, PrivateKey_draw u p (by omega)⟩
  refine ⟨⟨?_, ?_⟩, ⟨?_, ?_⟩, PrivateKey_three _⟩
  · intro hno
    by_contra hp
    obtain ⟨v, hv⟩ := hval (by omega)
    exact hno v hv
  · intro hp v hv
    rw [PrivateKey_of_le_two _ p hp] at hv
    cases hv
  · intro hpanic
    by_contra hp
    obtain ⟨v, hv⟩ := hval (by omega)
    rw [hv] at hpanic
    cases hpanic
  · intro hp
    exact PrivateKey_of_le_two _ p hp

end DiffieHellman

namespace Weather

/-- C16. For all strings `city` and `condition`, and whatever the package variables
held before, `Forecast(city, condition)` returns
`city ++ " - current weather condition: " ++ condition` and leaves
`CurrentLocation = city` and `CurrentCondition = condition`. -/
theorem C16_forecast (s : State) (city condition : String) :
    (Forecast s city condition).1 = city ++ " - current weather condition: " ++ condition ∧
    (Forecast s city condition).2.CurrentLocation = city ∧
    (Forecast s city condition).2.CurrentCondition = condition :=
  ⟨rfl, rfl, rfl⟩

end Weather
